import Mathlib

set_option maxRecDepth 10000

/-- Lowercasing of a Go string (modelled as a list of characters), as
strings.ToLower does character by character. -/
def goLower (s : List Char) : List Char := s.map Char.toLower

/-- Containment test of strings.Contains: sub occurs contiguously inside s.
The empty string is contained in every string. -/
def goContains (s sub : List Char) : Bool := decide (sub <:+: s)

/-- Lexicographic comparison of Go strings (the built-in < on string),
character by character. -/
def goStrLt : List Char → List Char → Bool
  | [], [] => false
  | [], _ :: _ => true
  | _ :: _, [] => false
  | a :: as, b :: bs => if a < b then true else if b < a then false else goStrLt as bs

/-- One registered command of a TableView: trigger rune, legend label and
enabled flag. The action callback is external code and is identified by the
command's index in the commands list. Mirrors the Command struct of
tableview.go without the back pointer to its table. -/
structure Command where
  ch : Char
  text : List Char
  enabled : Bool
deriving DecidableEq

/-- Pure state of a TableView (tableview.go). The fields owned by the terminal
toolkit (app, flex, table, legend, lastLine, inputCapture) are outside the
model; Go strings are lists of characters. -/
structure TableView where
  columns : List (List Char)
  data : List (List (List Char))
  expansions : List Int
  aligns : List Int
  filter : List Char
  orderRows : List Nat
  orderCols : List Nat
  commands : List Command
deriving DecidableEq

/-- Row test used by filterData and search: some cell at a column position
below the column count contains the (already lowercased) text. -/
def rowMatchesGo (numCols : Nat) (row : List (List Char)) (lowText : List Char) : Bool :=
  (List.range numCols).any (fun j => goContains (goLower (row.getD j [])) lowText)

/-- State effect of TableView.filterData: orderRows is recomputed from scratch
by scanning all data rows in ascending index order and keeping those with a
matching cell. The trailing fillTable call only redraws. -/
def filterData (t : TableView) : TableView :=
  { t with orderRows := ((List.range t.data.length).filter
      (fun i => rowMatchesGo t.columns.length (t.data.getD i []) (goLower t.filter))) }

/-- Effect of one step of the interactive filter editor (the f handler): the
typed text is stored in t.filter and filterData runs. -/
def applyFilter (t : TableView) (text : List Char) : TableView :=
  filterData { t with filter := text }

/-- Checked slice write l[i] = v of Go; none models an index-out-of-range
panic. -/
def setIdxChecked (l : List Nat) (i v : Nat) : Option (List Nat) :=
  if i < l.length then some (l.set i v) else none

/-- The loop for i := len(data); i < row+1; i++ of SetCell, which stores i at
absolute position i of orderRows, with the Go bounds check on every write;
the last argument is the remaining iteration count. -/
def writeIds (l : List Nat) (start : Nat) : Nat → Option (List Nat)
  | 0 => some l
  | k + 1 =>
    match setIdxChecked l start start with
    | some l2 => writeIds l2 (start + 1) k
    | none => none

/-- State effect of TableView.SetCell. A some result is a normal return,
including the silent early returns of the two guards; none models a Go panic.
Row and column are integers as in Go: the code checks column only against the
upper bound and row only against zero, then appends filler entries to
orderRows and empty rows to data when the row is beyond the current count,
grows the target row up to the column, and writes the cell. -/
def SetCell (t : TableView) (row col : Int) (content : List Char) : Option TableView :=
  if (t.columns.length : Int) ≤ col then some t
  else if row < 0 then some t
  else
    let grow : Option TableView :=
      if (t.data.length : Int) - 1 < row then
        let count := (row - (t.data.length : Int) + 1).toNat
        match writeIds (t.orderRows ++ List.replicate count 0) t.data.length count with
        | some nor => some { t with
            orderRows := nor
            data := t.data ++ List.replicate count [] }
        | none => none
      else some t
    match grow with
    | none => none
    | some t2 =>
      let r := row.toNat
      let theRow := t2.data.getD r []
      let theRow2 :=
        if (theRow.length : Int) - 1 < col then
          theRow ++ List.replicate (col - (theRow.length : Int) + 1).toNat ([] : List Char)
        else theRow
      if col < 0 ∨ (theRow2.length : Int) ≤ col then none
      else some { t2 with data := t2.data.set r (theRow2.set col.toNat content) }

/-- Result of one call of TableView.search. found carries the zero-based
position in orderRows that the code selects (Select is called with this
position plus one to skip the header row); panicked models a slice-index
panic on a negative remainder. -/
inductive SearchRes where
  | panicked : SearchRes
  | notFound : SearchRes
  | found : Nat → SearchRes
deriving DecidableEq

/-- Body of iteration i of the outer loop of TableView.search. The position
scanned is (startRow+i) % len(orderRows) with the truncated remainder of Go,
so a negative startRow would give a negative index and panic. -/
def searchStep (t : TableView) (lowText : List Char) (startRow : Int) (i : Nat) :
    Option SearchRes :=
  if (startRow + (i : Int)).tmod (t.orderRows.length : Int) < 0 then some SearchRes.panicked
  else if rowMatchesGo t.columns.length
      (t.data.getD
        (t.orderRows.getD ((startRow + (i : Int)).tmod (t.orderRows.length : Int)).toNat 0) [])
      lowText then
    some (SearchRes.found ((startRow + (i : Int)).tmod (t.orderRows.length : Int)).toNat)
  else none

/-- Model of TableView.search: iterate i = 0 .. len(orderRows)-1 and return
the first outcome. With zero visible rows the loop body never runs and the
function returns false (not found) without any remainder computation. -/
def search (t : TableView) (startRow : Int) (text : List Char) : SearchRes :=
  ((List.range t.orderRows.length).findSome? (searchStep t (goLower text) startRow)).getD
    SearchRes.notFound

/-- Example state for the SetCell bound checks: one column, one row, identity
projection. -/
def exTV4 : TableView :=
  { columns := [['A']], data := [[['a']]], expansions := [0], aligns := [0],
    filter := [], orderRows := [0], orderCols := [0], commands := [] }

/-- C4: the claim asserts that SetCell rejects a negative col, leaving all
state unchanged and never crashing. The code only guards col at the upper
bound and row at zero, so a negative col reaches the write
data[row][col] = content and panics (modelled as none) instead of returning. -/
theorem SetCell_negative_col_panics : SetCell exTV4 0 (-1) ['x'] = none := by decide

/-- Example state for SetCell growth under an active filter: two data rows,
filter text a, so orderRows holds only row 0 and is shorter than data. -/
def exTV5 : TableView :=
  { columns := [['A']], data := [[['a']], [['b']]], expansions := [0], aligns := [0],
    filter := ['a'], orderRows := [0], orderCols := [0], commands := [] }

/-- C5: the claim asserts that SetCell with row beyond the current count grows
the table and appends identity entries to visibleRows. The code stores i at
absolute index i of orderRows, which is only in bounds when orderRows has one
entry per data row; with the filter of exTV5 active, orderRows is [0] for two
data rows and SetCell 2 0 panics on the write orderRows[2] = 2 (modelled as
none). -/
theorem SetCell_growth_filtered_panics : SetCell exTV5 2 0 ['x'] = none := by decide

/-- C7: with zero visible rows, search returns not found for every start
position and text: the loop bound is len(orderRows), so no iteration and in
particular no remainder by zero is evaluated. -/
theorem search_empty_projection (t : TableView) (h : t.orderRows = [])
    (startRow : Int) (text : List Char) : search t startRow text = SearchRes.notFound := by
  unfold search
  rw [h]
  rfl

/-- Witness for C7 at a concrete empty projection and a negative start. -/
theorem search_empty_projection_witness :
    search
      { columns := [['A']]
        data := []
        expansions := [0]
        aligns := [0]
        filter := ['z']
        orderRows := []
        orderCols := [0]
        commands := [] }
      (-3) ['a'] = SearchRes.notFound :=
  search_empty_projection _ rfl (-3) ['a']

/-- Column swap of the column-mode < and > key handlers: the entries of
orderCols at positions p-1 and p are exchanged simultaneously. The guards of
the handlers (col == 0 for < and col == len-1 for >) make the swap a silent
no-op at either edge, modelled by the leading condition. -/
def swapAdjacent (oc : List Nat) (p : Nat) : List Nat :=
  if p = 0 ∨ oc.length ≤ p then oc
  else (oc.set (p - 1) (oc.getD p 0)).set p (oc.getD (p - 1) 0)

/-- Length is preserved by swapAdjacent. -/
theorem swapAdjacent_length (oc : List Nat) (p : Nat) :
    (swapAdjacent oc p).length = oc.length := by
  unfold swapAdjacent
  split
  · rfl
  · simp

/-- Unfolding of swapAdjacent away from the edges. -/
theorem swapAdjacent_eq (oc : List Nat) (p : Nat) (h1 : 0 < p) (h2 : p < oc.length) :
    swapAdjacent oc p = (oc.set (p - 1) (oc.getD p 0)).set p (oc.getD (p - 1) 0) := by
  unfold swapAdjacent
  rw [if_neg (by omega)]

/-- C8: performing the adjacent column swap at the same interior position
twice restores the previous column order. -/
theorem swapAdjacent_involutive (oc : List Nat) (p : Nat) (h1 : 0 < p)
    (h2 : p < oc.length) : swapAdjacent (swapAdjacent oc p) p = oc := by
  have hne : p ≠ p - 1 := by omega
  have hlen : (swapAdjacent oc p).length = oc.length := swapAdjacent_length oc p
  rw [swapAdjacent_eq (swapAdjacent oc p) p h1 (by omega)]
  rw [swapAdjacent_eq oc p h1 h2]
  have hp1 : p - 1 < oc.length := by omega
  have e1 : ((oc.set (p - 1) (oc.getD p 0)).set p (oc.getD (p - 1) 0)).getD p 0 =
      oc.getD (p - 1) 0 := by
    rw [List.getD_eq_getElem?_getD, List.getElem?_set_eq_of_lt]
    · rfl
    · simpa using h2
  have e2 : ((oc.set (p - 1) (oc.getD p 0)).set p (oc.getD (p - 1) 0)).getD (p - 1) 0 =
      oc.getD p 0 := by
    rw [List.getD_eq_getElem?_getD, List.getElem?_set_ne hne,
      List.getElem?_set_eq_of_lt _ hp1]
    rfl
  rw [e1, e2]
  apply List.ext_getElem?
  intro j
  by_cases hj1 : j = p
  · subst hj1
    rw [List.getElem?_set_eq_of_lt _ (by simpa using h2), List.getD_eq_getElem?_getD,
      List.getElem?_eq_getElem h2]
    rfl
  · by_cases hj2 : j = p - 1
    · subst hj2
      rw [List.getElem?_set_ne (show p ≠ p - 1 by omega),
        List.getElem?_set_eq_of_lt _ (by simpa using hp1),
        List.getD_eq_getElem?_getD, List.getElem?_eq_getElem hp1]
      rfl
    · rw [List.getElem?_set_ne (show p ≠ j by omega),
        List.getElem?_set_ne (show p - 1 ≠ j by omega),
        List.getElem?_set_ne (show p ≠ j by omega),
        List.getElem?_set_ne (show p - 1 ≠ j by omega)]

/-- Witness for C8 at the concrete order [7, 8, 9] and position 1. -/
theorem swapAdjacent_involutive_witness :
    swapAdjacent (swapAdjacent [7, 8, 9] 1) 1 = [7, 8, 9] :=
  swapAdjacent_involutive [7, 8, 9] 1 (by decide) (by decide)

/-- State effect of TableView.FillTable: columns and data are replaced,
expansions and aligns are padded with zeroes up to the new column count,
orderCols is reset to the identity when the column count changes, and
orderRows and the filter are reset exactly when the row count changes (the
final fillTable, Select and SetOffset calls touch only the renderer). -/
def FillTable (t : TableView) (columns : List (List Char))
    (data : List (List (List Char))) : TableView :=
  { t with
    columns := columns
    expansions := (if t.expansions.length < columns.length then
      t.expansions ++ List.replicate (columns.length - t.expansions.length) 0
      else t.expansions)
    aligns := (if t.aligns.length < columns.length then
      t.aligns ++ List.replicate (columns.length - t.aligns.length) 0
      else t.aligns)
    orderCols := (if t.orderCols.length ≠ columns.length then List.range columns.length
      else t.orderCols)
    orderRows := (if data.length ≠ t.data.length then List.range data.length
      else t.orderRows)
    filter := (if data.length ≠ t.data.length then ([] : List Char) else t.filter)
    data := data }

/-- C10: FillTable keeps the row projection and the filter when the new data
has exactly as many rows as the old, and resets the projection to the
identity order and the filter to the empty string when the row count
differs. -/
theorem FillTable_frame (t : TableView) (columns : List (List Char))
    (data : List (List (List Char))) :
    (data.length = t.data.length →
      (FillTable t columns data).orderRows = t.orderRows ∧
      (FillTable t columns data).filter = t.filter) ∧
    (data.length ≠ t.data.length →
      (FillTable t columns data).orderRows = List.range data.length ∧
      (FillTable t columns data).filter = []) := by
  constructor
  · intro h
    constructor
    · simp [FillTable, h]
    · simp [FillTable, h]
  · intro h
    constructor
    · simp [FillTable, h]
    · simp [FillTable, h]

/-- Example state for the FillTable frame property: one row, a sorted-looking
projection and a non-empty filter. -/
def exTV10 : TableView :=
  { columns := [['A']]
    data := [[['a']], [['b']]]
    expansions := [0]
    aligns := [0]
    filter := ['z']
    orderRows := [1, 0]
    orderCols := [0]
    commands := [] }

/-- Witness for C10: replacing the data of exTV10 with other two-row data
keeps orderRows [1, 0] and filter z, while one-row data resets them. -/
theorem FillTable_frame_witness :
    ((FillTable exTV10 [['A']] [[['c']], [['d']]]).orderRows = [1, 0] ∧
      (FillTable exTV10 [['A']] [[['c']], [['d']]]).filter = ['z']) ∧
    ((FillTable exTV10 [['A']] [[['c']]]).orderRows = List.range 1 ∧
      (FillTable exTV10 [['A']] [[['c']]]).filter = []) := by
  constructor
  · exact (FillTable_frame exTV10 [['A']] [[['c']], [['d']]]).1 (by decide)
  · exact (FillTable_frame exTV10 [['A']] [[['c']]]).2 (by decide)

/-- Bridge between the Boolean row test and its reading in the specification:
some column position below numCols holds a cell that contains the lowercased
text as a substring. -/
theorem rowMatchesGo_iff (numCols : Nat) (row : List (List Char)) (low : List Char) :
    rowMatchesGo numCols row low = true ↔
      ∃ j, j < numCols ∧ low <:+: goLower (row.getD j []) := by
  unfold rowMatchesGo goContains
  rw [List.any_eq_true]
  constructor
  · rintro ⟨j, hj, hc⟩
    exact ⟨j, List.mem_range.mp hj, of_decide_eq_true hc⟩
  · rintro ⟨j, hj, hc⟩
    exact ⟨j, List.mem_range.mpr hj, decide_eq_true hc⟩

/-- C1 as stated is false at a table with zero columns: the inner loop of
filterData runs over no columns, so no row ever matches and the empty filter
yields no rows instead of all rows. -/
theorem applyFilter_zero_columns_cex :
    (applyFilter
      { columns := []
        data := [[]]
        expansions := []
        aligns := []
        filter := []
        orderRows := [0]
        orderCols := []
        commands := [] } []).orderRows ≠ List.range 1 := by decide

/-- C1 amended: for a data matrix whose rows match the column count,
applyFilter(text) makes visibleRows exactly the ascending list of row indices
with some cell containing text case-insensitively, regardless of the previous
order; empty text yields all rows provided there is at least one column. The
well-formedness hypothesis marks the domain on which the embedding agrees
with Go, which indexes every row at all column positions. -/
theorem applyFilter_spec (t : TableView) (text : List Char)
    (hwf : ∀ r ∈ t.data, r.length = t.columns.length) :
    List.Pairwise (· < ·) (applyFilter t text).orderRows ∧
    (∀ i : Nat, i ∈ (applyFilter t text).orderRows ↔
      i < t.data.length ∧ ∃ j, j < t.columns.length ∧
        goLower text <:+: goLower ((t.data.getD i []).getD j [])) ∧
    (0 < t.columns.length → text = [] →
      (applyFilter t text).orderRows = List.range t.data.length) := by
  refine ⟨?_, ?_, ?_⟩
  · exact (List.pairwise_lt_range _).sublist (List.filter_sublist _)
  · intro i
    simp only [applyFilter, filterData, List.mem_filter, List.mem_range]
    constructor
    · rintro ⟨h1, h2⟩
      exact ⟨h1, (rowMatchesGo_iff _ _ _).mp h2⟩
    · rintro ⟨h1, h2⟩
      exact ⟨h1, (rowMatchesGo_iff _ _ _).mpr h2⟩
  · intro hc htext
    subst htext
    simp only [applyFilter, filterData]
    rw [List.filter_eq_self]
    intro i _
    apply (rowMatchesGo_iff _ _ _).mpr
    exact ⟨0, hc, by simpa [goLower] using List.nil_infix⟩

/-- Example state for the filter specification: one column, rows a and b. -/
def exTV1 : TableView :=
  { columns := [['A']]
    data := [[['a']], [['b']]]
    expansions := [0]
    aligns := [0]
    filter := []
    orderRows := [1, 0]
    orderCols := [0]
    commands := [] }

/-- Witness for the amended C1 at exTV1 with the filter text b, plus the
evaluated empty-text case. -/
theorem applyFilter_spec_witness :
    (List.Pairwise (· < ·) (applyFilter exTV1 ['b']).orderRows ∧
      (∀ i : Nat, i ∈ (applyFilter exTV1 ['b']).orderRows ↔
        i < exTV1.data.length ∧ ∃ j, j < exTV1.columns.length ∧
          goLower ['b'] <:+: goLower ((exTV1.data.getD i []).getD j [])) ∧
      (0 < exTV1.columns.length → ['b'] = ([] : List Char) →
        (applyFilter exTV1 ['b']).orderRows = List.range exTV1.data.length)) ∧
    (applyFilter exTV1 []).orderRows = List.range 2 :=
  ⟨applyFilter_spec exTV1 ['b'] (by decide),
    (applyFilter_spec exTV1 [] (by decide)).2.2 (by decide) rfl⟩

/-- Indices of the commands whose action the rune-key handler invokes for the
key r: the loop over t.commands runs the action of every enabled command
whose trigger equals r; there is no break after a match. -/
def dispatchIndices (cmds : List Command) (r : Char) : List Nat :=
  (List.range cmds.length).filter (fun i =>
    match cmds[i]? with
    | some c => c.enabled && c.ch == r
    | none => false)

/-- C3 as stated is false: with two enabled commands registered on the same
trigger x, pressing x also invokes the second-registered action (the loop has
no break), while the claim says only the first-registered one runs. -/
theorem dispatch_second_also_invoked :
    dispatchIndices [⟨'x', ['a'], true⟩, ⟨'x', ['b'], true⟩] 'x' = [0, 1] := by decide

/-- C3 amended: a key press invokes the actions of all enabled commands with
the matching trigger, in registration order. -/
theorem dispatch_invokes_all_enabled (cmds : List Command) (r : Char) :
    List.Pairwise (· < ·) (dispatchIndices cmds r) ∧
    ∀ i : Nat, i ∈ dispatchIndices cmds r ↔
      ∃ c, cmds[i]? = some c ∧ c.enabled = true ∧ c.ch = r := by
  constructor
  · exact (List.pairwise_lt_range _).sublist (List.filter_sublist _)
  · intro i
    unfold dispatchIndices
    rw [List.mem_filter]
    constructor
    · rintro ⟨hmem, hp⟩
      match hc : cmds[i]? with
      | some c =>
        rw [hc] at hp
        simp only [Bool.and_eq_true, beq_iff_eq] at hp
        exact ⟨c, rfl, hp.1, hp.2⟩
      | none =>
        rw [hc] at hp
        cases hp
    · rintro ⟨c, hc, he, hch⟩
      have hi : i < cmds.length := by
        by_contra hge
        rw [List.getElem?_eq_none (by omega)] at hc
        cases hc
      refine ⟨List.mem_range.mpr hi, ?_⟩
      rw [hc]
      simp [he, hch]

/-- Fixed hint prefix of updateLegend for normal mode. -/
def defaultMenuStr : String := " [yellow]q:quit   /:search   n:next   f:filter   c:columns"

/-- Fixed hint prefix as a character list. -/
def defaultMenu : List Char := defaultMenuStr.toList

/-- Legend fragment one command contributes (three spaces, trigger rune,
colon, label), from the Sprintf format of updateLegend. -/
def pairText (c : Command) : List Char := [' ', ' ', ' ', c.ch, ':'] ++ c.text

/-- Legend built by TableView.updateLegend: the fixed hints followed by one
fragment per command that is enabled and has a non-empty label, in
registration order. -/
def legendText (cmds : List Command) : List Char :=
  cmds.foldl (fun menu c => if c.enabled && !c.text.isEmpty then menu ++ pairText c else menu)
    defaultMenu

/-- Legend as the specification words it: one fragment for every enabled
command, with no condition on the label. Stated from the specification for
comparison with legendText. -/
def specLegendText (cmds : List Command) : List Char :=
  cmds.foldl (fun menu c => if c.enabled then menu ++ pairText c else menu) defaultMenu

/-- Effect of Command.Disable on the command value; the updateLegend call it
makes is covered by recomputing legendText. -/
def Command.disable (c : Command) : Command := { c with enabled := false }

/-- Folding the legend step from any prefix appends the fragments of the
enabled commands with non-empty labels. -/
theorem legendText_foldl (cmds : List Command) :
    ∀ init : List Char,
      cmds.foldl (fun menu c => if c.enabled && !c.text.isEmpty then menu ++ pairText c
        else menu) init =
      init ++ ((cmds.filter (fun c => c.enabled && !c.text.isEmpty)).map pairText).flatten := by
  induction cmds with
  | nil => intro init; simp
  | cons c cs ih =>
    intro init
    by_cases hc : (c.enabled && !c.text.isEmpty) = true
    · rw [List.foldl_cons, if_pos hc, ih]
      have hf : List.filter (fun c => c.enabled && !c.text.isEmpty) (c :: cs) =
          c :: List.filter (fun c => c.enabled && !c.text.isEmpty) cs := by
        simp [List.filter_cons, hc]
      rw [hf]
      simp
    · have hc2 : (c.enabled && !c.text.isEmpty) = false := by simpa using hc
      rw [List.foldl_cons, if_neg hc, ih]
      have hf : List.filter (fun c => c.enabled && !c.text.isEmpty) (c :: cs) =
          List.filter (fun c => c.enabled && !c.text.isEmpty) cs := by
        simp [List.filter_cons, hc2]
      rw [hf]

/-- C9 as stated is false: an enabled command with an empty label contributes
no fragment to the legend, while the specification formula includes its
trigger and (empty) label. -/
theorem legend_empty_label_cex :
    legendText [⟨'x', [], true⟩] ≠ specLegendText [⟨'x', [], true⟩] := by decide

/-- C9 amended: the legend equals the fixed hints followed by the fragments
of the enabled commands with non-empty labels, in registration order; and
after disabling a command, a key press never invokes its action. -/
theorem legend_enabled_and_disable_no_dispatch :
    (∀ cmds : List Command, legendText cmds =
      defaultMenu ++
        ((cmds.filter (fun c => c.enabled && !c.text.isEmpty)).map pairText).flatten) ∧
    (∀ (cmds : List Command) (k : Nat) (hk : k < cmds.length) (r : Char),
      k ∉ dispatchIndices (cmds.set k (Command.disable (cmds.get ⟨k, hk⟩))) r) := by
  constructor
  · intro cmds
    exact legendText_foldl cmds defaultMenu
  · intro cmds k hk r hmem
    unfold dispatchIndices at hmem
    rw [List.mem_filter] at hmem
    obtain ⟨hmem1, hp⟩ := hmem
    rw [List.getElem?_set_self (by simpa using hk)] at hp
    simp [Command.disable] at hp

/-- Witness for the amended C9 at one concrete command list: the legend
formula evaluated, and index 0 not dispatched after disabling the command. -/
theorem legend_enabled_and_disable_witness :
    legendText [⟨'y', ['r'], true⟩] =
      defaultMenu ++
        (([(⟨'y', ['r'], true⟩ : Command)].filter
          (fun c => c.enabled && !c.text.isEmpty)).map pairText).flatten ∧
    0 ∉ dispatchIndices
      ([(⟨'y', ['r'], true⟩ : Command)].set 0
        (Command.disable ([(⟨'y', ['r'], true⟩ : Command)].get ⟨0, by decide⟩))) 'y' :=
  ⟨legend_enabled_and_disable_no_dispatch.1 [⟨'y', ['r'], true⟩],
    legend_enabled_and_disable_no_dispatch.2 [⟨'y', ['r'], true⟩] 0 (by decide) 'y'⟩

/-- goStrLt agrees with the lexicographic strict order on character lists. -/
theorem goStrLt_iff_lex : ∀ x y : List Char, goStrLt x y = true ↔ List.Lex (· < ·) x y := by
  intro x
  induction x with
  | nil =>
    intro y
    cases y with
    | nil =>
      constructor
      · intro h; simp [goStrLt] at h
      · intro h; cases h
    | cons b bs =>
      constructor
      · intro _; exact List.Lex.nil
      · intro _; rfl
  | cons a as ih =>
    intro y
    cases y with
    | nil =>
      constructor
      · intro h; simp [goStrLt] at h
      · intro h; cases h
    | cons b bs =>
      by_cases hab : a < b
      · constructor
        · intro _; exact List.Lex.rel hab
        · intro _; simp [goStrLt, hab]
      · by_cases hba : b < a
        · constructor
          · intro h; simp [goStrLt, hab, hba] at h
          · intro h
            cases h with
            | rel h1 => exact absurd h1 hab
            | cons h1 => exact absurd hba (lt_irrefl a)
        · have heq : a = b := le_antisymm (not_lt.mp hba) (not_lt.mp hab)
          subst heq
          constructor
          · intro h
            have h2 : goStrLt as bs = true := by simpa [goStrLt, hab] using h
            exact List.Lex.cons ((ih bs).mp h2)
          · intro h
            have h2 : List.Lex (· < ·) as bs := by
              cases h with
              | rel h1 => exact absurd h1 hab
              | cons h1 => exact h1
            simpa [goStrLt, hab] using (ih bs).mpr h2

/-- Two strings that each fail the strict comparison in both directions are
equal. -/
theorem goStrLt_eq_of_false : ∀ x y : List Char,
    goStrLt x y = false → goStrLt y x = false → x = y := by
  intro x
  induction x with
  | nil =>
    intro y h1 h2
    cases y with
    | nil => rfl
    | cons b bs => simp [goStrLt] at h1
  | cons a as ih =>
    intro y h1 h2
    cases y with
    | nil => simp [goStrLt] at h2
    | cons b bs =>
      by_cases hab : a < b
      · simp [goStrLt, hab] at h1
      · by_cases hba : b < a
        · simp [goStrLt, hba] at h2
        · have heq : a = b := le_antisymm (not_lt.mp hba) (not_lt.mp hab)
          subst heq
          have h1b : goStrLt as bs = false := by simpa [goStrLt, hab] using h1
          have h2b : goStrLt bs as = false := by simpa [goStrLt, hab] using h2
          rw [ih bs h1b h2b]

/-- Sort key of the column-mode s handler for a visible-row entry a (an
original row index): the cell data[a][orderCols[col]] of the selected visible
column position col. -/
def sortKey (t : TableView) (col : Nat) (a : Nat) : List Char :=
  (t.data.getD a []).getD (t.orderCols.getD col 0) []

/-- Outcomes of the s handler, which calls sort.Slice on t.orderRows with
less a b comparing the sort keys of the entries with the Go string <. The Go
library guarantees exactly that the result is a permutation of the slice in
which no later entry has a key strictly below an earlier entry's key, and
documents that sort.Slice is not guaranteed to be stable, so every list
meeting this contract is a possible outcome of the call. -/
def sortSliceRel (t : TableView) (col : Nat) (post : List Nat) : Prop :=
  post.Perm t.orderRows ∧
    post.Pairwise (fun a b => goStrLt (sortKey t col b) (sortKey t col a) = false)

/-- Stability as the specification asserts it for sortBy: entries with equal
keys keep the relative order they had in orderRows. Stated from the
specification text. -/
def stableFor (t : TableView) (col : Nat) (post : List Nat) : Prop :=
  ∀ i j : Fin post.length, i.val < j.val →
    sortKey t col (post.get i) = sortKey t col (post.get j) →
    t.orderRows.indexOf (post.get i) < t.orderRows.indexOf (post.get j)

/-- Example state for sortBy: one column and two rows whose cells are both
the string a, in identity order. -/
def exTV2 : TableView :=
  { columns := [['A']]
    data := [[['a']], [['a']]]
    expansions := [0]
    aligns := [0]
    filter := []
    orderRows := [0, 1]
    orderCols := [0]
    commands := [] }

/-- C2 as stated is false on the contract the code relies on: with two equal
keys, the reversed order [1, 0] satisfies the sort.Slice postcondition (a
sorted permutation), yet it does not keep the previous relative order [0, 1]
of the tied rows, so stability is not guaranteed. -/
theorem sortBy_not_stable_cex :
    sortSliceRel exTV2 0 [1, 0] ∧ ¬ stableFor exTV2 0 [1, 0] := by
  constructor
  · unfold sortSliceRel
    constructor
    · decide
    · decide
  · unfold stableFor
    decide

/-- C2 amended: every outcome of the sort handler is a permutation of
visibleRows on which the chosen column's cell values are lexicographically
non-decreasing; stability for equal keys is not guaranteed. -/
theorem sortBy_sorted_perm (t : TableView) (col : Nat) (post : List Nat)
    (h : sortSliceRel t col post) :
    post.Perm t.orderRows ∧
    post.Pairwise (fun a b => sortKey t col a = sortKey t col b ∨
      List.Lex (· < ·) (sortKey t col a) (sortKey t col b)) := by
  refine ⟨h.1, h.2.imp ?_⟩
  intro a b hab
  by_cases hx : goStrLt (sortKey t col a) (sortKey t col b) = true
  · exact Or.inr ((goStrLt_iff_lex _ _).mp hx)
  · have hx2 : goStrLt (sortKey t col a) (sortKey t col b) = false := by
      simpa using hx
    exact Or.inl (goStrLt_eq_of_false _ _ hx2 hab)

/-- Witness for the amended C2 at exTV2 with the reversed outcome. -/
theorem sortBy_sorted_perm_witness :
    ([1, 0] : List Nat).Perm exTV2.orderRows ∧
    List.Pairwise (fun a b => sortKey exTV2 0 a = sortKey exTV2 0 b ∨
      List.Lex (· < ·) (sortKey exTV2 0 a) (sortKey exTV2 0 b)) [1, 0] :=
  sortBy_sorted_perm exTV2 0 [1, 0] (by
    unfold sortSliceRel
    exact ⟨by decide, by decide⟩)

/-- Row match at visible position q, read as the specification words it: some
column's cell of the row shown at position q contains the text
case-insensitively. -/
def rowContainsAt (t : TableView) (q : Nat) (text : List Char) : Prop :=
  ∃ j, j < t.columns.length ∧
    goLower text <:+: goLower ((t.data.getD (t.orderRows.getD q 0) []).getD j [])

instance (t : TableView) (q : Nat) (text : List Char) : Decidable (rowContainsAt t q text) :=
  decidable_of_iff
    (rowMatchesGo t.columns.length (t.data.getD (t.orderRows.getD q 0) []) (goLower text) = true)
    (rowMatchesGo_iff _ _ _)

/-- If every hit of f on l yields the value v and some element of l hits,
the first hit that findSome? returns is v. -/
theorem findSome?_eq_of_hits {α : Type} (f : Nat → Option α) (v : α) :
    ∀ l : List Nat, (∀ i ∈ l, ∀ r, f i = some r → r = v) →
      (∃ i ∈ l, (f i).isSome) → l.findSome? f = some v := by
  intro l
  induction l with
  | nil =>
    intro _ hex
    obtain ⟨i, hi, _⟩ := hex
    cases hi
  | cons a l2 ih =>
    intro hall hex
    cases hfa : f a with
    | some b =>
      have hb : b = v := hall a (List.mem_cons_self a l2) b hfa
      subst hb
      simp [List.findSome?_cons, hfa]
    | none =>
      have hex2 : ∃ i ∈ l2, (f i).isSome := by
        obtain ⟨i, hi, hs⟩ := hex
        rcases List.mem_cons.mp hi with h | h
        · subst h
          rw [hfa] at hs
          cases hs
        · exact ⟨i, h, hs⟩
      have hall2 : ∀ i ∈ l2, ∀ r, f i = some r → r = v :=
        fun i hi => hall i (List.mem_cons_of_mem a hi)
      rw [List.findSome?_cons, hfa]
      exact ih hall2 hex2

/-- Position arithmetic of the wrap-around: starting at s < n, the iteration
i = (p + n - s) % n lands exactly on position p. -/
theorem mod_cycle_hit (s p n : Nat) (hs : s < n) (hp : p < n) :
    (s + (p + n - s) % n) % n = p := by
  rw [Nat.add_mod_mod, show s + (p + n - s) = p + n by omega, Nat.add_mod_right,
    Nat.mod_eq_of_lt hp]

/-- With a non-negative start the remainder of searchStep never panics and
the scanned position is the Euclidean (s + i) % len(orderRows). -/
theorem searchStep_at_nat (t : TableView) (low : List Char) (s i : Nat) :
    searchStep t low (s : Int) i =
      (if rowMatchesGo t.columns.length
          (t.data.getD (t.orderRows.getD ((s + i) % t.orderRows.length) 0) []) low = true
       then some (SearchRes.found ((s + i) % t.orderRows.length)) else none) := by
  unfold searchStep
  rw [show (s : Int) + (i : Int) = ((s + i : Nat) : Int) by simp]
  rw [show ((s + i : Nat) : Int).tmod ((t.orderRows.length : Nat) : Int) =
      (((s + i) % t.orderRows.length : Nat) : Int) from rfl]
  rw [if_neg (by omega : ¬ (((s + i) % t.orderRows.length : Nat) : Int) < 0)]
  rw [show ((((s + i) % t.orderRows.length : Nat) : Int)).toNat =
      (s + i) % t.orderRows.length from rfl]

/-- C6: on a non-empty projection in which exactly one visible position's row
contains the text, search started at any position below the visible row count
returns that position: the circular scan beginning at the start position,
inclusive, covers every position within len(visibleRows) steps, and only the
unique matching one can return. -/
theorem search_unique_match (t : TableView) (text : List Char) (s p : Nat)
    (hs : s < t.orderRows.length) (hp : p < t.orderRows.length)
    (hmatch : rowContainsAt t p text)
    (huniq : ∀ q : Fin t.orderRows.length, rowContainsAt t q.val text → q.val = p) :
    search t (s : Int) text = SearchRes.found p := by
  have hn : 0 < t.orderRows.length := by omega
  unfold search
  have hall : ∀ i ∈ List.range t.orderRows.length, ∀ r,
      searchStep t (goLower text) (s : Int) i = some r → r = SearchRes.found p := by
    intro i _ r hr
    rw [searchStep_at_nat] at hr
    by_cases hm : rowMatchesGo t.columns.length
        (t.data.getD (t.orderRows.getD ((s + i) % t.orderRows.length) 0) [])
        (goLower text) = true
    · rw [if_pos hm] at hr
      have hq : (s + i) % t.orderRows.length = p :=
        huniq ⟨(s + i) % t.orderRows.length, Nat.mod_lt _ hn⟩ ((rowMatchesGo_iff _ _ _).mp hm)
      cases hr
      rw [hq]
    · rw [if_neg hm] at hr
      cases hr
  have hex : ∃ i ∈ List.range t.orderRows.length,
      (searchStep t (goLower text) (s : Int) i).isSome := by
    refine ⟨(p + t.orderRows.length - s) % t.orderRows.length,
      List.mem_range.mpr (Nat.mod_lt _ hn), ?_⟩
    rw [searchStep_at_nat, mod_cycle_hit s p t.orderRows.length hs hp,
      if_pos ((rowMatchesGo_iff _ _ _).mpr hmatch)]
    rfl
  rw [findSome?_eq_of_hits _ (SearchRes.found p) (List.range t.orderRows.length) hall hex]
  rfl

/-- Example state for search: one column, three visible rows a, b, c in
identity order. -/
def exTV6 : TableView :=
  { columns := [['A']]
    data := [[['a']], [['b']], [['c']]]
    expansions := [0]
    aligns := [0]
    filter := []
    orderRows := [0, 1, 2]
    orderCols := [0]
    commands := [] }

/-- Witness for C6: the text b occurs exactly in the row at visible position
1, and searching from start position 2 wraps around and finds position 1. -/
theorem search_unique_match_witness :
    search exTV6 ((2 : Nat) : Int) ['b'] = SearchRes.found 1 :=
  search_unique_match exTV6 ['b'] 2 1 (by decide) (by decide) (by decide) (by decide)
